import Mathlib

/-!
A shallow embedding of the record store of the notes backend
(`src/notes_backend/src/services/database.py`, class `InMemoryDatabase`),
together with the parts of the HTTP adapter
(`src/notes_backend/src/routers/notes.py`) that the claims mention.

Modelling conventions:
* A Python `dict` (which preserves insertion order) becomes an
  insertion-ordered association list `List (Nat × NoteRec)`; setting a key
  updates the entry in place, a fresh key is appended at the end, exactly
  as CPython dicts behave.
* `datetime` values become `Nat` (chronological order becomes `<` on `Nat`);
  every operation that calls `datetime.now()` receives the current time as
  an explicit `now : Nat` argument.
* `list.sort(key=..., reverse=True)` is Python's stable Timsort; any stable
  sort has the same output, and we model it by a stable insertion sort
  `sortByCreatedDesc` (an element is inserted before the first element whose
  key is not strictly greater, so equal-key elements keep their input order).
* File persistence: the backing file's content is part of the explicit state
  (`FileState`); `json.dump(..., default=str)` stringifies the `int` dict
  keys and the `datetime` fields, which we model with a concrete decimal
  rendering `natToStr`; pydantic's parsing of those strings back into
  `datetime`/`int` is modelled by `strToNat`.
* Fallible code (the loader can hit an uncaught `ValueError` from `int(k)`)
  returns `Option`.
-/

namespace NotesApp

/-- The in-memory note record held in `InMemoryDatabase.notes` (the
`note_dict` built in `create_note`): id, title, content and the two
timestamps, with `datetime` modelled as `Nat`. -/
structure NoteRec where
  id : Nat
  title : String
  content : String
  created_at : Nat
  updated_at : Nat
deriving DecidableEq

/-- The body of a `PUT /notes/{id}` request (`NoteUpdate` in
`src/models/note.py`): each field is either absent from the partial input
(`none`) or supplied (`some v`); `model_dump(exclude_unset=True)` keeps
exactly the supplied fields. -/
structure NoteUpdate where
  title : Option String
  content : Option String
deriving DecidableEq

/-- In-place set of a key in an insertion-ordered dict: an existing key keeps
its position, a fresh key is appended (CPython dict assignment). -/
def dictSet : List (Nat × NoteRec) → Nat → NoteRec → List (Nat × NoteRec)
  | [], k, v => [(k, v)]
  | (k', v') :: rest, k, v =>
    if k' = k then (k, v) :: rest else (k', v') :: dictSet rest k v

/-- Lookup in the insertion-ordered dict (`self.notes.get(note_id)` /
`note_id in self.notes`). -/
def dictGet : List (Nat × NoteRec) → Nat → Option NoteRec
  | [], _ => none
  | (k', v') :: rest, k => if k' = k then some v' else dictGet rest k

/-- Deletion of a key (`del self.notes[note_id]`), preserving the order of
the remaining entries. -/
def dictDel : List (Nat × NoteRec) → Nat → List (Nat × NoteRec)
  | [], _ => []
  | (k', v') :: rest, k => if k' = k then rest else (k', v') :: dictDel rest k

/-- One step of the stable descending insertion sort: walk past elements with
strictly greater `created_at`, so an inserted element lands before every
element with an equal key (stability of Python's `sort(..., reverse=True)`). -/
def insertByCreated (x : NoteRec) : List NoteRec → List NoteRec
  | [] => [x]
  | y :: ys =>
    if x.created_at < y.created_at then y :: insertByCreated x ys
    else x :: y :: ys

/-- Stable sort by `created_at` descending, modelling
`all_notes.sort(key=lambda x: x['created_at'], reverse=True)`. -/
def sortByCreatedDesc : List NoteRec → List NoteRec
  | [] => []
  | x :: xs => insertByCreated x (sortByCreatedDesc xs)

/-- Digit of `d` (`0 ≤ d ≤ 9`) as a character, for the decimal rendering
(48 is the code point of the zero character). -/
def digitChar (d : Nat) : Char :=
  Char.ofNat (48 + d)

/-- Inverse of `digitChar` on decimal digit characters. -/
def charDigit (c : Char) : Option Nat :=
  if 48 ≤ c.toNat ∧ c.toNat ≤ 57 then some (c.toNat - 48) else none

/-- Little-endian decimal digits of `n`, with explicit fuel (the fuel `n`
itself is always enough since `n / 10 < n` for `n > 0`). -/
def toDigitsAux : Nat → Nat → List Nat
  | 0, _ => []
  | _ + 1, 0 => []
  | fuel + 1, n + 1 => ((n + 1) % 10) :: toDigitsAux fuel ((n + 1) / 10)

/-- Little-endian decimal digits of `n` (empty for `0`). -/
def natDigits (n : Nat) : List Nat := toDigitsAux n n

/-- Value of a little-endian digit list. -/
def ofDigitsLE : List Nat → Nat
  | [] => 0
  | d :: ds => d + 10 * ofDigitsLE ds

/-- Decimal rendering of a natural number, modelling both Python's
stringification of `int` dict keys in `json.dump` and `str(datetime)` under
`default=str` (an injective textual encoding of the timestamp). -/
def natToStr (n : Nat) : String :=
  if n = 0 then "0" else ⟨((natDigits n).map digitChar).reverse⟩

/-- Parse a list of decimal digit characters (big-endian). -/
def parseDigits : List Char → Option (List Nat)
  | [] => some []
  | c :: cs =>
    match charDigit c, parseDigits cs with
    | some d, some ds => some (d :: ds)
    | _, _ => none

/-- Parse a decimal string back to a natural number, modelling Python's
`int(k)` on the stringified keys and pydantic's parsing of the stringified
timestamps; `none` models the raised exception on non-numeric text. -/
def strToNat (s : String) : Option Nat :=
  match s.data with
  | [] => none
  | cs => (parseDigits cs).map fun ds => ofDigitsLE ds.reverse

/-- A note as it sits in the persisted JSON document: `json.dump` with
`default=str` keeps `id`, `title`, `content` as they are and stringifies the
two `datetime` fields. -/
structure StoredNote where
  id : Nat
  title : String
  content : String
  created_at : String
  updated_at : String
deriving DecidableEq

/-- The persisted JSON document written by `_save_to_file`: a mapping from
stringified identifier to note record under key `notes`, and the counter
under key `next_id`. The `Option`s model `data.get('notes', {})` and
`data.get('next_id', 1)` in `_load_from_file`, which tolerate absent keys. -/
structure PersistedDoc where
  notes : Option (List (String × StoredNote))
  next_id : Option Nat
deriving DecidableEq

/-- State of the configured backing file: absent (`os.path.exists` is false),
present but empty or not valid JSON (`json.load` raises `JSONDecodeError`),
or successfully parsed into a document. -/
inductive FileState where
  | missing : FileState
  | malformed : FileState
  | parsed : PersistedDoc → FileState
deriving DecidableEq

/-- Stringify one in-memory note for the persisted document. -/
def storeNote (n : NoteRec) : StoredNote :=
  ⟨n.id, n.title, n.content, natToStr n.created_at, natToStr n.updated_at⟩

/-- The document `_save_to_file` serializes: the whole notes map (keys
stringified by `json.dump`) plus the `next_id` counter. -/
def serializeDoc (notes : List (Nat × NoteRec)) (next_id : Nat) : PersistedDoc :=
  ⟨some (notes.map fun p => (natToStr p.1, storeNote p.2)), some next_id⟩

/-- The dict comprehension `{int(k): v for k, v in data.get('notes', {}).items()}`
of `_load_from_file`: parse every key, keep the stored values; `none` models
the uncaught `ValueError` from `int(k)` on a non-numeric key. -/
def loadEntries : List (String × StoredNote) → Option (List (Nat × StoredNote))
  | [] => some []
  | (k, v) :: rest =>
    match strToNat k, loadEntries rest with
    | some n, some l => some ((n, v) :: l)
    | _, _ => none

/-- Startup of the store (`InMemoryDatabase.__init__` followed by
`_load_from_file` when a file is configured and exists): yields the initial
notes map (raw stored values, timestamps still text) and the initial counter,
or `none` when loading raises an uncaught exception. A missing file is never
read; an empty or unparseable file is caught (`JSONDecodeError`) and the
store falls back to the empty state with counter 1. -/
def initNotes (data_file : Bool) (fs : FileState) :
    Option (List (Nat × StoredNote) × Nat) :=
  if data_file then
    match fs with
    | .missing => some ([], 1)
    | .malformed => some ([], 1)
    | .parsed doc =>
      match loadEntries (doc.notes.getD []) with
      | some ns => some (ns, doc.next_id.getD 1)
      | none => none
  else some ([], 1)

/-- Pydantic's `NoteResponse(**note)` applied to a note loaded from the file:
title/content/id are taken as stored, the textual timestamps are parsed back
into `datetime`s; `none` models a validation error on unparseable text. -/
def respOfStored (s : StoredNote) : Option NoteRec :=
  match strToNat s.created_at, strToNat s.updated_at with
  | some c, some u => some ⟨s.id, s.title, s.content, c, u⟩
  | _, _ => none

/-- The full store state: whether a backing file path is configured
(`self.data_file`), the current content of that file, the in-memory notes
dict and the `next_id` counter. -/
structure DB where
  data_file : Bool
  fileContent : FileState
  notes : List (Nat × NoteRec)
  next_id : Nat
deriving DecidableEq

/-- `_save_to_file`: when a path is configured, replace the file's content
with the serialized snapshot of the whole state; otherwise do nothing. -/
def saveToFile (db : DB) : DB :=
  if db.data_file then
    { db with fileContent := .parsed (serializeDoc db.notes db.next_id) }
  else db

/-- A store that starts empty (fresh `InMemoryDatabase` before any
operation): empty map, counter 1. -/
def emptyDB (data_file : Bool) (fs : FileState) : DB :=
  ⟨data_file, fs, [], 1⟩

/-- `InMemoryDatabase.create_note`: build the record with `id = next_id` and
both timestamps equal to `now`, insert it, increment the counter, save. -/
def create_note (db : DB) (title content : String) (now : Nat) : NoteRec × DB :=
  let note : NoteRec :=
    { id := db.next_id, title := title, content := content
      created_at := now, updated_at := now }
  let db' : DB :=
    { db with notes := dictSet db.notes db.next_id note, next_id := db.next_id + 1 }
  (note, saveToFile db')

/-- `InMemoryDatabase.get_note`: pure lookup. -/
def get_note (db : DB) (note_id : Nat) : Option NoteRec :=
  dictGet db.notes note_id

/-- `InMemoryDatabase.get_notes`: sort all notes by `created_at` descending
(stable), return the slice `[skip : skip + limit]` and the total count of all
notes. -/
def get_notes (db : DB) (skip limit : Nat) : List NoteRec × Nat :=
  let all := sortByCreatedDesc (db.notes.map Prod.snd)
  ((all.drop skip).take limit, all.length)

/-- `InMemoryDatabase.update_note`: absent id is reported as `none` with no
state change; otherwise apply exactly the supplied fields, and when at least
one field was supplied set `updated_at := now` and save; with nothing
supplied return the current record and change nothing. -/
def update_note (db : DB) (note_id : Nat) (upd : NoteUpdate) (now : Nat) :
    Option NoteRec × DB :=
  match dictGet db.notes note_id with
  | none => (none, db)
  | some note =>
    if upd.title.isSome || upd.content.isSome then
      let note' : NoteRec :=
        { note with
          title := upd.title.getD note.title
          content := upd.content.getD note.content
          updated_at := now }
      (some note', saveToFile { db with notes := dictSet db.notes note_id note' })
    else (some note, db)

/-- `InMemoryDatabase.delete_note`: remove the record if present and save,
returning `true`; return `false` (and change nothing) if the id is absent. -/
def delete_note (db : DB) (note_id : Nat) : Bool × DB :=
  if (dictGet db.notes note_id).isSome then
    (true, saveToFile { db with notes := dictDel db.notes note_id })
  else (false, db)

/-- `a :: as` begins with `needle`? (character-list version of Python's
startswith, used to express substring containment). -/
def isPrefixList : List Char → List Char → Bool
  | [], _ => true
  | _ :: _, [] => false
  | a :: as, b :: bs => a = b && isPrefixList as bs

/-- `needle` occurs as a contiguous substring of `hay` (Python's `in` on
strings), as an executable check. -/
def substrB (needle : List Char) : List Char → Bool
  | [] => needle.isEmpty
  | c :: cs => isPrefixList needle (c :: cs) || substrB needle cs

/-- `needle` occurs as a contiguous substring of `hay`, as a proposition. -/
def containsSub (hay needle : List Char) : Prop :=
  ∃ s t, hay = s ++ needle ++ t

/-- Python's `str.lower()`, modelled as per-character lowering of the
string's characters. -/
def strLower (s : String) : List Char :=
  s.data.map Char.toLower

/-- The match condition of `search_notes`:
`query.lower() in note['title'].lower() or query.lower() in note['content'].lower()`. -/
def noteMatches (query : String) (n : NoteRec) : Bool :=
  substrB (strLower query) (strLower n.title) ||
    substrB (strLower query) (strLower n.content)

/-- `InMemoryDatabase.search_notes`: keep the notes whose lowered title or
content contains the lowered query, then sort by `created_at` descending
(stable). -/
def search_notes (db : DB) (query : String) : List NoteRec :=
  sortByCreatedDesc ((db.notes.map Prod.snd).filter (noteMatches query))

/-- The adapter's guard on `GET /notes/search`
(`q: str = Query(..., min_length=1)` in `src/routers/notes.py`): the query
must be non-empty or the request is rejected before reaching the store. -/
def routerSearchAccepts (q : String) : Bool :=
  decide (1 ≤ q.length)

/-- The store operations a client can drive through the adapter, with the
wall-clock time of each call made explicit. -/
inductive Op where
  | create : String → String → Nat → Op
  | update : Nat → NoteUpdate → Nat → Op
  | delete : Nat → Op
deriving DecidableEq

/-- Apply one operation to the store, keeping only the state. -/
def applyOp (db : DB) : Op → DB
  | .create t c now => (create_note db t c now).2
  | .update i u now => (update_note db i u now).2
  | .delete i => (delete_note db i).2

/-- Run a sequence of operations. -/
def runOps (db : DB) : List Op → DB
  | [] => db
  | op :: ops => runOps (applyOp db op) ops

/-- The identifiers returned by the `create` calls of a run, in call order. -/
def issuedIds (db : DB) : List Op → List Nat
  | [] => []
  | .create t c now :: ops =>
    (create_note db t c now).1.id :: issuedIds (applyOp db (.create t c now)) ops
  | op :: ops => issuedIds (applyOp db op) ops

/-- The well-formedness the store maintains: dict keys strictly increase in
insertion order, every record's `id` equals its key, and every key is below
the counter. -/
def wfNotes (db : DB) : Prop :=
  db.notes.Pairwise (fun a b => a.1 < b.1) ∧
    ∀ p ∈ db.notes, (p.2).id = p.1 ∧ p.1 < db.next_id

/-- The ordering the store actually produces on `List` and `Search` results:
`created_at` strictly decreasing, and on equal `created_at` the smaller id
(the earlier-created, earlier-inserted note) first. -/
def listOrd (a b : NoteRec) : Prop :=
  b.created_at < a.created_at ∨ (b.created_at = a.created_at ∧ a.id < b.id)

/-- The ordering claimed by the spec for ties: equal `created_at` broken by
descending id (the larger id first). -/
def specOrd (a b : NoteRec) : Prop :=
  b.created_at < a.created_at ∨ (b.created_at = a.created_at ∧ b.id < a.id)

instance (a b : NoteRec) : Decidable (listOrd a b) := by
  unfold listOrd; exact inferInstance

instance (a b : NoteRec) : Decidable (specOrd a b) := by
  unfold specOrd; exact inferInstance

/-- A sample store with a configured backing file holding one note
`⟨1, "T", "C", 0, 0⟩` created at time 0. -/
def dbT : DB := (create_note (emptyDB true .missing) "T" "C" 0).2

/-- A sample store holding two notes created at the same instant (time 5):
id 1 titled "a", id 2 titled "b". -/
def dbTie : DB :=
  (create_note ((create_note (emptyDB false .missing) "a" "x" 5).2) "b" "y" 5).2

/-! ### Decimal rendering round-trip -/

theorem charDigit_digitChar : ∀ d < 10, charDigit (digitChar d) = some d := by
  decide

theorem toDigitsAux_lt : ∀ fuel n, ∀ d ∈ toDigitsAux fuel n, d < 10 := by
  intro fuel
  induction fuel with
  | zero => intro n d hd; simp [toDigitsAux] at hd
  | succ fuel ih =>
    intro n d hd
    cases n with
    | zero => simp [toDigitsAux] at hd
    | succ m =>
      simp only [toDigitsAux, List.mem_cons] at hd
      rcases hd with h | h
      · subst h; exact Nat.mod_lt _ (by omega)
      · exact ih _ _ h

theorem ofDigitsLE_toDigitsAux : ∀ fuel n, n ≤ fuel →
    ofDigitsLE (toDigitsAux fuel n) = n := by
  intro fuel
  induction fuel with
  | zero => intro n h; interval_cases n; simp [toDigitsAux, ofDigitsLE]
  | succ fuel ih =>
    intro n h
    cases n with
    | zero => simp [toDigitsAux, ofDigitsLE]
    | succ m =>
      have hdiv : (m + 1) / 10 ≤ fuel := by
        have := Nat.div_lt_self (Nat.succ_pos m) (by omega : 1 < 10)
        omega
      simp only [toDigitsAux, ofDigitsLE, ih _ hdiv]
      omega

theorem parseDigits_map_digitChar : ∀ ds : List Nat, (∀ d ∈ ds, d < 10) →
    parseDigits (ds.map digitChar) = some ds := by
  intro ds
  induction ds with
  | nil => intro _; rfl
  | cons d ds ih =>
    intro h
    have hd : d < 10 := h d (List.mem_cons_self _ _)
    simp only [List.map_cons, parseDigits, charDigit_digitChar d hd,
      ih fun x hx => h x (List.mem_cons_of_mem _ hx)]

theorem natDigits_succ (m : Nat) :
    natDigits (m + 1) = ((m + 1) % 10) :: toDigitsAux m ((m + 1) / 10) := rfl

theorem strToNat_cons (c : Char) (cs : List Char) :
    strToNat ⟨c :: cs⟩ = (parseDigits (c :: cs)).map fun ds => ofDigitsLE ds.reverse :=
  rfl

theorem strToNat_natToStr (n : Nat) : strToNat (natToStr n) = some n := by
  cases n with
  | zero => decide
  | succ m =>
    have hne : natToStr (m + 1) = ⟨((natDigits (m + 1)).map digitChar).reverse⟩ := by
      simp [natToStr]
    rw [hne]
    have hdig : ∀ d ∈ natDigits (m + 1), d < 10 := toDigitsAux_lt _ _
    have hcons : ∃ c cs, ((natDigits (m + 1)).map digitChar).reverse = c :: cs := by
      rw [natDigits_succ, List.map_cons]
      rcases h : (List.map digitChar (toDigitsAux m ((m + 1) / 10))).reverse with _ | ⟨c, cs⟩
      · exact ⟨digitChar ((m + 1) % 10), [], by simp [h]⟩
      · exact ⟨c, cs ++ [digitChar ((m + 1) % 10)], by simp [h]⟩
    obtain ⟨c, cs, hcs⟩ := hcons
    rw [hcs, strToNat_cons, ← hcs, ← List.map_reverse]
    rw [parseDigits_map_digitChar _ (fun d hd => hdig d (List.mem_reverse.mp hd))]
    simp only [Option.map_some', List.reverse_reverse]
    unfold natDigits
    rw [ofDigitsLE_toDigitsAux _ _ (Nat.le_refl _)]

/-! ### Substring check vs. substring proposition -/

theorem isPrefixList_iff (n h : List Char) :
    isPrefixList n h = true ↔ ∃ t, h = n ++ t := by
  induction n generalizing h with
  | nil => simp [isPrefixList]
  | cons a as ih =>
    cases h with
    | nil =>
      simp only [isPrefixList, List.cons_append]
      constructor
      · intro hfalse; cases hfalse
      · rintro ⟨t, ht⟩; cases ht
    | cons b bs =>
      simp only [isPrefixList, Bool.and_eq_true, decide_eq_true_eq, ih,
        List.cons_append, List.cons.injEq]
      constructor
      · rintro ⟨rfl, t, rfl⟩; exact ⟨t, rfl, rfl⟩
      · rintro ⟨t, rfl, rfl⟩; exact ⟨rfl, t, rfl⟩

theorem substrB_iff (n h : List Char) :
    substrB n h = true ↔ containsSub h n := by
  induction h with
  | nil =>
    simp only [substrB, List.isEmpty_iff, containsSub]
    constructor
    · rintro rfl; exact ⟨[], [], rfl⟩
    · rintro ⟨s, t, ht⟩
      rcases List.append_eq_nil.mp (List.append_eq_nil.mp ht.symm).1 with ⟨_, h2⟩
      exact h2
  | cons c cs ih =>
    simp only [substrB, Bool.or_eq_true, isPrefixList_iff, ih, containsSub]
    constructor
    · rintro (⟨t, ht⟩ | ⟨s, t, ht⟩)
      · exact ⟨[], t, by simp [ht]⟩
      · exact ⟨c :: s, t, by simp [ht]⟩
    · rintro ⟨s, t, ht⟩
      cases s with
      | nil => exact Or.inl ⟨t, by simpa using ht⟩
      | cons c' s' =>
        right
        rw [List.cons_append, List.cons_append, List.cons.injEq] at ht
        exact ⟨s', t, ht.2⟩

theorem noteMatches_iff (q : String) (n : NoteRec) :
    noteMatches q n = true ↔
      containsSub (strLower n.title) (strLower q) ∨
        containsSub (strLower n.content) (strLower q) := by
  simp only [noteMatches, Bool.or_eq_true, substrB_iff]

theorem substrB_nil_left (h : List Char) : substrB [] h = true := by
  cases h <;> simp [substrB, isPrefixList]

theorem noteMatches_empty (n : NoteRec) : noteMatches "" n = true := by
  have hq : strLower "" = [] := rfl
  simp only [noteMatches, hq, substrB_nil_left, Bool.or_self]

/-! ### The stable descending sort -/

theorem insertByCreated_perm (x : NoteRec) (l : List NoteRec) :
    List.Perm (insertByCreated x l) (x :: l) := by
  induction l with
  | nil => exact List.Perm.refl _
  | cons y ys ih =>
    unfold insertByCreated
    split
    · exact (ih.cons y).trans (List.Perm.swap x y ys)
    · exact List.Perm.refl _

theorem sortByCreatedDesc_perm (l : List NoteRec) :
    List.Perm (sortByCreatedDesc l) l := by
  induction l with
  | nil => exact List.Perm.refl _
  | cons x xs ih =>
    exact (insertByCreated_perm x (sortByCreatedDesc xs)).trans (ih.cons x)

theorem mem_sortByCreatedDesc {l : List NoteRec} {n : NoteRec} :
    n ∈ sortByCreatedDesc l ↔ n ∈ l :=
  (sortByCreatedDesc_perm l).mem_iff

theorem insertByCreated_pairwise {x : NoteRec} {l : List NoteRec}
    (h1 : l.Pairwise listOrd) (h2 : ∀ y ∈ l, x.id < y.id) :
    (insertByCreated x l).Pairwise listOrd := by
  induction l with
  | nil => exact List.pairwise_singleton _ _
  | cons y ys ih =>
    rcases List.pairwise_cons.mp h1 with ⟨hy, hys⟩
    unfold insertByCreated
    split
    · rename_i hlt
      refine List.pairwise_cons.mpr ⟨?_, ih hys fun z hz => h2 z (List.mem_cons_of_mem _ hz)⟩
      intro z hz
      rcases List.mem_cons.mp ((insertByCreated_perm x ys).mem_iff.mp hz) with rfl | hz'
      · exact Or.inl hlt
      · exact hy z hz'
    · rename_i hge
      have hyx : y.created_at ≤ x.created_at := Nat.le_of_not_lt hge
      refine List.pairwise_cons.mpr ⟨?_, h1⟩
      intro z hz
      rcases List.mem_cons.mp hz with rfl | hz'
      · rcases Nat.lt_or_ge z.created_at x.created_at with hlt | hge'
        · exact Or.inl hlt
        · exact Or.inr ⟨Nat.le_antisymm hyx hge', h2 z (List.mem_cons_self _ _)⟩
      · have hzy : z.created_at ≤ y.created_at := by
          rcases hy z hz' with h | ⟨h, _⟩
          · exact Nat.le_of_lt h
          · exact Nat.le_of_eq h
        rcases Nat.lt_or_ge z.created_at x.created_at with hlt | hge'
        · exact Or.inl hlt
        · exact Or.inr ⟨Nat.le_antisymm (Nat.le_trans hzy hyx) hge',
            h2 z (List.mem_cons_of_mem _ hz')⟩

theorem sortByCreatedDesc_pairwise {l : List NoteRec}
    (h : l.Pairwise fun a b => a.id < b.id) :
    (sortByCreatedDesc l).Pairwise listOrd := by
  induction l with
  | nil => exact List.Pairwise.nil
  | cons x xs ih =>
    rcases List.pairwise_cons.mp h with ⟨hx, hxs⟩
    exact insertByCreated_pairwise (ih hxs)
      fun y hy => hx y (mem_sortByCreatedDesc.mp hy)

/-! ### Dict lemmas -/

theorem dictGet_mem {m : List (Nat × NoteRec)} {k : Nat} {v : NoteRec}
    (h : dictGet m k = some v) : (k, v) ∈ m := by
  induction m with
  | nil => cases h
  | cons p rest ih =>
    obtain ⟨k', v'⟩ := p
    unfold dictGet at h
    split at h
    · rename_i hk
      cases h
      subst hk
      exact List.mem_cons_self _ _
    · exact List.mem_cons_of_mem _ (ih h)

theorem dictSet_fresh {m : List (Nat × NoteRec)} {k : Nat} (v : NoteRec)
    (h : ∀ p ∈ m, p.1 ≠ k) : dictSet m k v = m ++ [(k, v)] := by
  induction m with
  | nil => rfl
  | cons p rest ih =>
    obtain ⟨k', v'⟩ := p
    unfold dictSet
    rw [if_neg (h (k', v') (List.mem_cons_self _ _))]
    rw [ih fun q hq => h q (List.mem_cons_of_mem _ hq)]
    rfl

theorem mem_dictSet {m : List (Nat × NoteRec)} {k : Nat} {v : NoteRec} {p : Nat × NoteRec}
    (h : p ∈ dictSet m k v) : p ∈ m ∨ p = (k, v) := by
  induction m with
  | nil =>
    unfold dictSet at h
    rcases List.mem_singleton.mp h with rfl
    exact Or.inr rfl
  | cons q rest ih =>
    obtain ⟨k', v'⟩ := q
    unfold dictSet at h
    split at h
    · rcases List.mem_cons.mp h with rfl | hm
      · exact Or.inr rfl
      · exact Or.inl (List.mem_cons_of_mem _ hm)
    · rcases List.mem_cons.mp h with rfl | hm
      · exact Or.inl (List.mem_cons_self _ _)
      · rcases ih hm with hm' | hm'
        · exact Or.inl (List.mem_cons_of_mem _ hm')
        · exact Or.inr hm'

theorem dictSet_pairwise_of_get {m : List (Nat × NoteRec)} {k : Nat} {w v : NoteRec}
    (hget : dictGet m k = some w)
    (hpw : m.Pairwise fun a b => a.1 < b.1) :
    (dictSet m k v).Pairwise fun a b => a.1 < b.1 := by
  induction m with
  | nil => cases hget
  | cons p rest ih =>
    obtain ⟨k', v'⟩ := p
    rcases List.pairwise_cons.mp hpw with ⟨hp, hrest⟩
    unfold dictGet at hget
    unfold dictSet
    split
    · rename_i hk
      subst hk
      exact List.pairwise_cons.mpr ⟨hp, hrest⟩
    · rename_i hk
      rw [if_neg hk] at hget
      refine List.pairwise_cons.mpr ⟨?_, ih hget hrest⟩
      intro q hq
      rcases mem_dictSet hq with hm | rfl
      · exact hp q hm
      · exact hp (k, w) (dictGet_mem hget)

theorem dictDel_sublist (m : List (Nat × NoteRec)) (k : Nat) :
    List.Sublist (dictDel m k) m := by
  induction m with
  | nil => exact List.Sublist.refl _
  | cons p rest ih =>
    obtain ⟨k', v'⟩ := p
    unfold dictDel
    split
    · exact List.sublist_cons_self _ _
    · exact ih.cons₂ _

theorem dictGet_eq_none {m : List (Nat × NoteRec)} {k : Nat}
    (h : ∀ p ∈ m, p.1 ≠ k) : dictGet m k = none := by
  induction m with
  | nil => rfl
  | cons p rest ih =>
    obtain ⟨k', v'⟩ := p
    unfold dictGet
    rw [if_neg (h (k', v') (List.mem_cons_self _ _))]
    exact ih fun q hq => h q (List.mem_cons_of_mem _ hq)

/-! ### State invariant and runs -/

theorem saveToFile_notes (db : DB) : (saveToFile db).notes = db.notes := by
  unfold saveToFile; split <;> rfl

theorem saveToFile_next_id (db : DB) : (saveToFile db).next_id = db.next_id := by
  unfold saveToFile; split <;> rfl

theorem wfNotes_saveToFile {db : DB} : wfNotes (saveToFile db) ↔ wfNotes db := by
  unfold wfNotes
  rw [saveToFile_notes, saveToFile_next_id]

theorem create_note_state (db : DB) (t c : String) (now : Nat) :
    (create_note db t c now).2 = saveToFile
      { db with
        notes := dictSet db.notes db.next_id
          { id := db.next_id, title := t, content := c
            created_at := now, updated_at := now }
        next_id := db.next_id + 1 } := rfl

theorem update_note_state (db : DB) (i : Nat) (u : NoteUpdate) (now : Nat) :
    (update_note db i u now).2 = db ∨
      ∃ note, dictGet db.notes i = some note ∧
        (update_note db i u now).2 = saveToFile
          { db with
            notes := dictSet db.notes i
              ⟨note.id, u.title.getD note.title, u.content.getD note.content,
                note.created_at, now⟩ } := by
  unfold update_note
  rcases hget : dictGet db.notes i with _ | note
  · exact Or.inl rfl
  · dsimp only
    by_cases hsup : (u.title.isSome || u.content.isSome) = true
    · exact Or.inr ⟨note, rfl, by rw [if_pos hsup]⟩
    · rw [if_neg hsup]
      exact Or.inl rfl

theorem delete_note_state (db : DB) (i : Nat) :
    (delete_note db i).2 = db ∨
      (delete_note db i).2 = saveToFile { db with notes := dictDel db.notes i } := by
  unfold delete_note
  split
  · exact Or.inr rfl
  · exact Or.inl rfl

theorem wfNotes_applyOp {db : DB} (h : wfNotes db) (op : Op) :
    wfNotes (applyOp db op) := by
  obtain ⟨hpw, hmem⟩ := h
  cases op with
  | create t c now =>
    have hfresh : ∀ p ∈ db.notes, p.1 ≠ db.next_id :=
      fun p hp => Nat.ne_of_lt (hmem p hp).2
    show wfNotes (create_note db t c now).2
    rw [create_note_state, wfNotes_saveToFile]
    constructor
    · show List.Pairwise _ (dictSet db.notes db.next_id _)
      rw [dictSet_fresh _ hfresh, List.pairwise_append]
      refine ⟨hpw, List.pairwise_singleton _ _, ?_⟩
      intro a ha b hb
      rcases List.mem_singleton.mp hb with rfl
      exact (hmem a ha).2
    · intro p hp
      rw [show ({ db with
          notes := dictSet db.notes db.next_id
            { id := db.next_id, title := t, content := c
              created_at := now, updated_at := now }
          next_id := db.next_id + 1 } : DB).notes
          = dictSet db.notes db.next_id
            { id := db.next_id, title := t, content := c
              created_at := now, updated_at := now } from rfl,
        dictSet_fresh _ hfresh] at hp
      rcases List.mem_append.mp hp with hm | hm
      · exact ⟨(hmem p hm).1, Nat.lt_succ_of_lt (hmem p hm).2⟩
      · rcases List.mem_singleton.mp hm with rfl
        exact ⟨rfl, Nat.lt_succ_self _⟩
  | update i u now =>
    show wfNotes (update_note db i u now).2
    rcases update_note_state db i u now with heq | ⟨note, hget, heq⟩
    · rw [heq]; exact ⟨hpw, hmem⟩
    · rw [heq, wfNotes_saveToFile]
      constructor
      · exact dictSet_pairwise_of_get hget hpw
      · intro p hp
        rcases mem_dictSet hp with hm | rfl
        · exact hmem p hm
        · exact ⟨(hmem (i, note) (dictGet_mem hget)).1,
            (hmem (i, note) (dictGet_mem hget)).2⟩
  | delete i =>
    show wfNotes (delete_note db i).2
    rcases delete_note_state db i with heq | heq
    · rw [heq]; exact ⟨hpw, hmem⟩
    · rw [heq, wfNotes_saveToFile]
      constructor
      · exact hpw.sublist (dictDel_sublist _ _)
      · intro p hp
        exact hmem p ((dictDel_sublist db.notes i).subset hp)

theorem wfNotes_emptyDB (cfg : Bool) (fs : FileState) : wfNotes (emptyDB cfg fs) := by
  constructor
  · exact List.Pairwise.nil
  · intro p hp; cases hp

theorem wfNotes_runOps {db : DB} (h : wfNotes db) (ops : List Op) :
    wfNotes (runOps db ops) := by
  induction ops generalizing db with
  | nil => exact h
  | cons op ops ih => exact ih (wfNotes_applyOp h op)

theorem next_id_applyOp (db : DB) (op : Op) :
    db.next_id ≤ (applyOp db op).next_id := by
  cases op with
  | create t c now =>
    rw [applyOp, create_note, saveToFile_next_id]
    exact Nat.le_succ _
  | update i u now =>
    rw [applyOp, update_note]
    rcases dictGet db.notes i with _ | note
    · exact Nat.le_refl _
    · simp only
      split
      · rw [saveToFile_next_id]
      · exact Nat.le_refl _
  | delete i =>
    rw [applyOp, delete_note]
    split
    · rw [saveToFile_next_id]
    · exact Nat.le_refl _

theorem next_id_runOps (db : DB) (ops : List Op) :
    db.next_id ≤ (runOps db ops).next_id := by
  induction ops generalizing db with
  | nil => exact Nat.le_refl _
  | cons op ops ih =>
    exact Nat.le_trans (next_id_applyOp db op) (ih (applyOp db op))

theorem runOps_append (db : DB) (l₁ l₂ : List Op) :
    runOps db (l₁ ++ l₂) = runOps (runOps db l₁) l₂ := by
  induction l₁ generalizing db with
  | nil => rfl
  | cons op ops ih => rw [List.cons_append, runOps, runOps, ih]

theorem issuedIds_create (db : DB) (t c : String) (now : Nat) (ops : List Op) :
    issuedIds db (.create t c now :: ops)
      = (create_note db t c now).1.id :: issuedIds (applyOp db (.create t c now)) ops := rfl

theorem issuedIds_update (db : DB) (j : Nat) (u : NoteUpdate) (now : Nat) (ops : List Op) :
    issuedIds db (.update j u now :: ops)
      = issuedIds (applyOp db (.update j u now)) ops := rfl

theorem issuedIds_delete (db : DB) (j : Nat) (ops : List Op) :
    issuedIds db (.delete j :: ops) = issuedIds (applyOp db (.delete j)) ops := rfl

theorem issuedIds_spec (ops : List Op) : ∀ db : DB,
    (issuedIds db ops).Pairwise (· < ·) ∧
      ∀ i ∈ issuedIds db ops, db.next_id ≤ i ∧ i < (runOps db ops).next_id := by
  induction ops with
  | nil =>
    intro db
    exact ⟨List.Pairwise.nil, fun i hi => absurd hi (List.not_mem_nil _)⟩
  | cons op ops ih =>
    intro db
    cases op with
    | create t c now =>
      have hnext : (applyOp db (.create t c now)).next_id = db.next_id + 1 := by
        rw [applyOp, create_note, saveToFile_next_id]
      obtain ⟨hpw, hbd⟩ := ih (applyOp db (.create t c now))
      constructor
      · rw [issuedIds_create]
        refine List.pairwise_cons.mpr ⟨?_, hpw⟩
        intro j hj
        have := (hbd j hj).1
        rw [hnext] at this
        exact Nat.lt_of_succ_le this
      · intro i hi
        rw [issuedIds_create] at hi
        rw [runOps]
        rcases List.mem_cons.mp hi with rfl | hm
        · constructor
          · exact Nat.le_refl _
          · have h1 : db.next_id < (applyOp db (.create t c now)).next_id := by
              rw [hnext]; exact Nat.lt_succ_self _
            exact Nat.lt_of_lt_of_le h1 (next_id_runOps _ ops)
        · have := hbd i hm
          rw [hnext] at this
          exact ⟨Nat.le_of_succ_le this.1, this.2⟩
    | update j u now =>
      obtain ⟨hpw, hbd⟩ := ih (applyOp db (.update j u now))
      have hnext : db.next_id ≤ (applyOp db (.update j u now)).next_id :=
        next_id_applyOp db _
      refine ⟨hpw, ?_⟩
      intro i hi
      rw [issuedIds_update] at hi
      have := hbd i hi
      exact ⟨Nat.le_trans hnext this.1, this.2⟩
    | delete j =>
      obtain ⟨hpw, hbd⟩ := ih (applyOp db (.delete j))
      have hnext : db.next_id ≤ (applyOp db (.delete j)).next_id :=
        next_id_applyOp db _
      refine ⟨hpw, ?_⟩
      intro i hi
      rw [issuedIds_delete] at hi
      have := hbd i hi
      exact ⟨Nat.le_trans hnext this.1, this.2⟩

/-! ### Serialization lemmas -/

theorem loadEntries_serialize (notes : List (Nat × NoteRec)) :
    loadEntries (notes.map fun p => (natToStr p.1, storeNote p.2))
      = some (notes.map fun p => (p.1, storeNote p.2)) := by
  induction notes with
  | nil => rfl
  | cons p rest ih =>
    simp only [List.map_cons, loadEntries, strToNat_natToStr, ih]

theorem respOfStored_storeNote (n : NoteRec) : respOfStored (storeNote n) = some n := by
  unfold respOfStored storeNote
  dsimp only
  rw [strToNat_natToStr, strToNat_natToStr]

/-! ### The claims -/

/-- Claim C1, counterexample: two notes created at the same instant (store
`dbTie`) come back from `List` and `Search` with equal `created_at` but the
SMALLER id first (`[1, 2]`), so the claimed descending-id tie-break
(`specOrd`) fails on both operations. -/
theorem c1_order_ties_counterexample :
    ((get_notes dbTie 0 10).1.map NoteRec.created_at = [5, 5] ∧
      (get_notes dbTie 0 10).1.map NoteRec.id = [1, 2]) ∧
    ¬ ((get_notes dbTie 0 10).1.Pairwise specOrd) ∧
    ¬ ((search_notes dbTie "").Pairwise specOrd) := by
  decide

/-- Claim C1, amended: for every reachable store state, `List` pages and
`Search` results are ordered by `created_at` descending, and two returned
notes with equal `created_at` appear with the SMALLER id first (insertion
i.e. creation order — Python's sort is stable), as captured by `listOrd`. -/
theorem c1_order_ties_amended (cfg : Bool) (fs : FileState) (ops : List Op)
    (skip limit : Nat) (q : String) :
    ((get_notes (runOps (emptyDB cfg fs) ops) skip limit).1.Pairwise listOrd) ∧
    ((search_notes (runOps (emptyDB cfg fs) ops) q).Pairwise listOrd) := by
  obtain ⟨hpw, hmem⟩ := wfNotes_runOps (wfNotes_emptyDB cfg fs) ops
  have hvals : (((runOps (emptyDB cfg fs) ops).notes.map Prod.snd).Pairwise
      fun a b => a.id < b.id) := by
    rw [List.pairwise_map]
    refine hpw.imp_of_mem ?_
    intro a b ha hb hlt
    rw [(hmem a ha).1, (hmem b hb).1]
    exact hlt
  constructor
  · show ((((sortByCreatedDesc _).drop skip).take limit).Pairwise listOrd)
    exact (sortByCreatedDesc_pairwise hvals).sublist
      ((List.take_sublist _ _).trans (List.drop_sublist _ _))
  · exact sortByCreatedDesc_pairwise (hvals.sublist (List.filter_sublist _))

/-- Claim C2, counterexample: on store `dbT` (one note `⟨1, "T", "C", 0, 0⟩`),
an `Update` that supplies `title := "T"` — equal to the stored value, so no
stored field changes — still refreshes `updated_at` to the call time 5 and
still writes the backing file, contradicting the claim. -/
theorem c2_update_refresh_counterexample :
    (dictGet dbT.notes 1).map NoteRec.title = some "T" ∧
    (dictGet dbT.notes 1).map NoteRec.updated_at = some 0 ∧
    ((update_note dbT 1 ⟨some "T", none⟩ 5).1).map NoteRec.updated_at = some 5 ∧
    (update_note dbT 1 ⟨some "T", none⟩ 5).2.fileContent ≠ dbT.fileContent := by
  decide

/-- Claim C2, amended: for every existing note, `Update` refreshes
`updated_at` (to the call time) iff at least one field is explicitly
supplied in the partial input — regardless of whether the supplied value
differs from the stored one — and an update supplying no fields returns the
current note and leaves the entire store state (including the backing file)
unchanged. -/
theorem c2_update_refresh_amended (db : DB) (i : Nat) (u : NoteUpdate) (now : Nat)
    (note : NoteRec) (h : dictGet db.notes i = some note) :
    ((update_note db i u now).1.map NoteRec.updated_at
      = some (if u.title.isSome || u.content.isSome then now else note.updated_at)) ∧
    ((u.title.isSome || u.content.isSome) = false →
      update_note db i u now = (some note, db)) := by
  unfold update_note
  rw [h]
  dsimp only
  by_cases hsup : (u.title.isSome || u.content.isSome) = true
  · rw [if_pos hsup, if_pos hsup]
    exact ⟨rfl, fun hzero => absurd hsup (by rw [hzero]; exact Bool.false_ne_true)⟩
  · rw [if_neg hsup, if_neg hsup]
    exact ⟨rfl, fun _ => rfl⟩

/-- Claim C2 amended, witness: on `dbT`, supplying `content := "C2"` at time
7 refreshes `updated_at` to 7, and supplying nothing returns the stored note
and the unchanged store. -/
theorem c2_update_refresh_amended_witness :
    ((update_note dbT 1 ⟨none, some "C2"⟩ 7).1.map NoteRec.updated_at
      = some (if (none : Option String).isSome || (some "C2").isSome then 7
          else (0 : Nat))) ∧
    update_note dbT 1 ⟨none, none⟩ 7 = (some ⟨1, "T", "C", 0, 0⟩, dbT) :=
  ⟨(c2_update_refresh_amended dbT 1 ⟨none, some "C2"⟩ 7 ⟨1, "T", "C", 0, 0⟩ (by decide)).1,
   (c2_update_refresh_amended dbT 1 ⟨none, none⟩ 7 ⟨1, "T", "C", 0, 0⟩ (by decide)).2 rfl⟩

/-- Claim C3: over every run from the empty store, the identifiers returned
by successive `Create` calls are strictly increasing (hence never repeat,
even interleaved with deletions and updates), and after any prefix of the
run — and any continuation of it — the next-identifier counter strictly
exceeds every identifier issued during that prefix. -/
theorem c3_ids_strictly_increasing (cfg : Bool) (fs : FileState)
    (ops₁ ops₂ : List Op) :
    (issuedIds (emptyDB cfg fs) (ops₁ ++ ops₂)).Pairwise (· < ·) ∧
    ∀ i ∈ issuedIds (emptyDB cfg fs) ops₁,
      i < (runOps (emptyDB cfg fs) (ops₁ ++ ops₂)).next_id := by
  refine ⟨(issuedIds_spec (ops₁ ++ ops₂) (emptyDB cfg fs)).1, ?_⟩
  intro i hi
  have h1 : i < (runOps (emptyDB cfg fs) ops₁).next_id :=
    ((issuedIds_spec ops₁ (emptyDB cfg fs)).2 i hi).2
  rw [runOps_append]
  exact Nat.lt_of_lt_of_le h1 (next_id_runOps _ ops₂)

/-- Claim C3, witness: create, delete the note, create again — the issued
ids `[1, 2]` are strictly increasing, and id 1 stays below the final
counter. -/
theorem c3_ids_strictly_increasing_witness :
    (issuedIds (emptyDB false .missing)
        ([.create "a" "b" 0] ++ [.delete 1, .create "c" "d" 1])).Pairwise (· < ·) ∧
    (1 : Nat) < (runOps (emptyDB false .missing)
        ([.create "a" "b" 0] ++ [.delete 1, .create "c" "d" 1])).next_id :=
  ⟨(c3_ids_strictly_increasing false .missing [.create "a" "b" 0]
      [.delete 1, .create "c" "d" 1]).1,
   (c3_ids_strictly_increasing false .missing [.create "a" "b" 0]
      [.delete 1, .create "c" "d" 1]).2 1 (by decide)⟩

/-- Claim C4: for every existing note, a title-only update sets the title
and leaves content/created_at/id untouched, a content-only update sets the
content and leaves the title untouched, and an update supplying no fields
returns the current note with the whole store (including the backing file)
unchanged. -/
theorem c4_partial_update_frame (db : DB) (i : Nat) (t c : String) (now : Nat)
    (note : NoteRec) (h : dictGet db.notes i = some note) :
    (update_note db i ⟨some t, none⟩ now).1
        = some ⟨note.id, t, note.content, note.created_at, now⟩ ∧
    (update_note db i ⟨none, some c⟩ now).1
        = some ⟨note.id, note.title, c, note.created_at, now⟩ ∧
    update_note db i ⟨none, none⟩ now = (some note, db) := by
  unfold update_note
  rw [h]
  exact ⟨rfl, rfl, rfl⟩

/-- Claim C4, witness: on `dbT` (note `⟨1, "T", "C", 0, 0⟩`), a title-only
update to "X" keeps content "C", a content-only update to "Y" keeps title
"T", and the empty partial update is a no-op. -/
theorem c4_partial_update_frame_witness :
    (update_note dbT 1 ⟨some "X", none⟩ 9).1 = some ⟨1, "X", "C", 0, 9⟩ ∧
    (update_note dbT 1 ⟨none, some "Y"⟩ 9).1 = some ⟨1, "T", "Y", 0, 9⟩ ∧
    update_note dbT 1 ⟨none, none⟩ 9 = (some ⟨1, "T", "C", 0, 0⟩, dbT) :=
  c4_partial_update_frame dbT 1 "X" "Y" 9 ⟨1, "T", "C", 0, 0⟩ (by decide)

/-- Claim C5: serializing the full state (all notes plus the counter) and
starting a fresh store from that file restores the counter exactly and every
note under its original identifier, and each restored note parses back (as
the HTTP layer reads it) to exactly the original record. -/
theorem c5_persist_roundtrip (db : DB) :
    initNotes true (.parsed (serializeDoc db.notes db.next_id))
        = some (db.notes.map (fun p => (p.1, storeNote p.2)), db.next_id) ∧
    db.notes.map (fun p => respOfStored (storeNote p.2))
        = db.notes.map (fun p => some p.2) := by
  constructor
  · unfold initNotes serializeDoc
    rw [if_pos rfl]
    dsimp only [Option.getD]
    rw [loadEntries_serialize]
  · simp only [respOfStored_storeNote]

/-- Claim C6: startup with a missing, empty or unparseable backing file (or
with no file configured) always succeeds and yields the empty state — no
notes, counter 1; and any startup that yields anything other than the empty
state can only have read it from a configured file that existed and parsed
successfully. -/
theorem c6_startup_fallback (cfg : Bool) (fs : FileState) :
    ((fs = .missing ∨ fs = .malformed) → initNotes cfg fs = some ([], 1)) ∧
    (∀ ns nid, initNotes cfg fs = some (ns, nid) → (ns, nid) ≠ ([], 1) →
      cfg = true ∧ ∃ doc, fs = .parsed doc) := by
  constructor
  · rintro (rfl | rfl) <;> cases cfg <;> rfl
  · intro ns nid hinit hne
    cases cfg with
    | false =>
      unfold initNotes at hinit
      rw [if_neg (by exact Bool.false_ne_true)] at hinit
      cases hinit
      exact absurd rfl hne
    | true =>
      cases fs with
      | missing =>
        cases hinit
        exact absurd rfl hne
      | malformed =>
        cases hinit
        exact absurd rfl hne
      | parsed doc => exact ⟨rfl, doc, rfl⟩

/-- Claim C6, witness: an unparseable file yields the empty state with
counter 1, while a parsed non-empty document is indeed the only way to a
non-empty startup state. -/
theorem c6_startup_fallback_witness :
    initNotes true .malformed = some ([], 1) ∧
    (true = true ∧ ∃ doc,
      (FileState.parsed ⟨some [("2", ⟨2, "t", "c", "0", "1"⟩)], some 7⟩)
        = .parsed doc) :=
  ⟨(c6_startup_fallback true .malformed).1 (Or.inr rfl),
   (c6_startup_fallback true
      (.parsed ⟨some [("2", ⟨2, "t", "c", "0", "1"⟩)], some 7⟩)).2
      [(2, ⟨2, "t", "c", "0", "1"⟩)] 7 (by decide) (by decide)⟩

/-- Claim C7: `Search(query)` returns exactly the notes whose lowered title
or lowered content contains the lowered query as a contiguous substring —
a literal case-insensitive substring match, nothing else. -/
theorem c7_search_exact (db : DB) (q : String) (n : NoteRec) :
    n ∈ search_notes db q ↔
      n ∈ db.notes.map Prod.snd ∧
        (containsSub (strLower n.title) (strLower q) ∨
          containsSub (strLower n.content) (strLower q)) := by
  unfold search_notes
  rw [mem_sortByCreatedDesc, List.mem_filter, noteMatches_iff]

/-- Claim C8: updating an identifier that is not in the store returns the
"not found" signal and leaves the whole store state — note map, counter and
backing file — unchanged. -/
theorem c8_update_missing_id (db : DB) (i : Nat) (u : NoteUpdate) (now : Nat)
    (h : dictGet db.notes i = none) :
    update_note db i u now = (none, db) := by
  unfold update_note
  rw [h]

/-- Claim C8, witness: updating id 3 on the one-note store `dbT` reports
"not found" and changes nothing. -/
theorem c8_update_missing_id_witness :
    update_note dbT 3 ⟨some "a", none⟩ 1 = (none, dbT) :=
  c8_update_missing_id dbT 3 ⟨some "a", none⟩ 1 (by decide)

/-- Claim C9: `List(skip, limit)` always reports as total the number of all
notes in the store, independent of the page requested, and a `skip` at or
beyond the collection size yields an empty page. -/
theorem c9_list_total (db : DB) (skip limit : Nat) :
    (get_notes db skip limit).2 = db.notes.length ∧
    (db.notes.length ≤ skip → (get_notes db skip limit).1 = []) := by
  have hlen : (sortByCreatedDesc (db.notes.map Prod.snd)).length = db.notes.length := by
    rw [(sortByCreatedDesc_perm _).length_eq, List.length_map]
  constructor
  · exact hlen
  · intro hskip
    show (((sortByCreatedDesc (db.notes.map Prod.snd)).drop skip).take limit) = []
    rw [List.drop_eq_nil_of_le (by rw [hlen]; exact hskip), List.take_nil]

/-- Claim C9, witness: on the one-note store `dbT`, `List(skip=2, limit=5)`
reports total 1 with an empty page. -/
theorem c9_list_total_witness :
    (get_notes dbT 2 5).2 = dbT.notes.length ∧ (get_notes dbT 2 5).1 = [] :=
  ⟨(c9_list_total dbT 2 5).1, (c9_list_total dbT 2 5).2 (by decide)⟩

/-- Claim C10: `Search` with the empty query matches every note (the empty
string is a substring of everything), so it returns exactly the notes of the
store (as a permutation, reordered by `created_at`); the store itself
accepts the empty query — only the HTTP adapter's `min_length=1` guard
rejects it. -/
theorem c10_search_empty_query (db : DB) :
    List.Perm (search_notes db "") (db.notes.map Prod.snd) ∧
      routerSearchAccepts "" = false := by
  constructor
  · unfold search_notes
    rw [List.filter_eq_self.mpr fun a _ => noteMatches_empty a]
    exact sortByCreatedDesc_perm _
  · decide

end NotesApp
